import Mathlib

/-!
Shallow embedding of `src/files/ini_file.py` (the `IniFile` class and its
operations) and verification of the specification's claims about it.

The Python module edits INI-style files line by line.  `IniFile.__init__`
reads the file with `readlines()`; `get_option`, `set_option`, `del_option`
and `del_section` scan `self.lines`, classifying each stripped line with the
regexes `rx_option = ^([^\s=]+)\s*=\s*(.*)` and `rx_section = ^\[([^\]]+)\]`;
`save` writes the lines back with `writelines`.

Python strings are modelled as `String`, `self.lines` as `List String`,
`None` (for the section argument and `cur_section`) as `Option String`.
Python's `list.extend(str)` and slice assignment `lines[i:i] = str` iterate
the string, so they splice in one-character strings; this is modelled
faithfully by `strLines`.
-/

/-- The whitespace set of Python 2 `str.strip()`:
space, tab, newline, carriage return, vertical tab, form feed. -/
def isPySpace (c : Char) : Bool :=
  c == ' ' || c == '\t' || c == '\n' || c == '\r' ||
  c == Char.ofNat 11 || c == Char.ofNat 12

/-- Remove leading Python whitespace (the left half of `str.strip()`). -/
def stripLeft (cs : List Char) : List Char := cs.dropWhile isPySpace

/-- Remove trailing Python whitespace (the right half of `str.strip()`). -/
def stripRight (cs : List Char) : List Char :=
  (cs.reverse.dropWhile isPySpace).reverse

/-- `line.strip()` on the character list of a line. -/
def stripCh (cs : List Char) : List Char := stripRight (stripLeft cs)

/-- `line.startswith('#') or line.startswith(';')` on a stripped line. -/
def isCommentCh : List Char → Bool
  | [] => false
  | c :: _ => c == '#' || c == ';'

/-- A character allowed in the key of `rx_option`: the class `[^\s=]`. -/
def optKeyChar (c : Char) : Bool := !isPySpace c && c != '='

/-- `rx_option.match(line)`: the regex `^([^\s=]+)\s*=\s*(.*)` applied to a
stripped line, returning the two captured groups.  The key group is the
maximal nonempty prefix of non-whitespace non-`=` characters; `\s*` runs are
maximal; `.` does not match a newline, so the value capture stops at the
first newline (relevant only for strings with interior newlines). -/
def rxOptionCh (t : List Char) : Option (List Char × List Char) :=
  let k := t.takeWhile optKeyChar
  if k.isEmpty then none
  else
    match (t.dropWhile optKeyChar).dropWhile isPySpace with
    | '=' :: r => some (k, (r.dropWhile isPySpace).takeWhile (fun c => c != '\n'))
    | _ => none

/-- `rx_section.match(line)`: the regex `^\[([^\]]+)\]` applied to a stripped
line; the capture is the nonempty run of non-`]` characters after a leading
`[`, provided a closing `]` follows. -/
def rxSectionCh : List Char → Option (List Char)
  | '[' :: rest =>
    let n := rest.takeWhile (fun c => c != ']')
    if n.isEmpty then none
    else if (rest.dropWhile (fun c => c != ']')).isEmpty then none else some n
  | _ => none

/-- The classification every scan in `get_option`, `set_option` and
`del_option` applies to a line, in the order the Python code tests:
blank, comment, option (`rx_option`), section (`rx_section`), other. -/
inductive LineKind where
  | blank : LineKind
  | comment : LineKind
  | opt : String → String → LineKind
  | sec : String → LineKind
  | other : LineKind
deriving DecidableEq, Repr

/-- Classify one raw line exactly as the loop bodies of `get_option`,
`set_option` and `del_option` do: strip it, test for blank, then comment,
then `rx_option`, then `rx_section`. -/
def classify (l : String) : LineKind :=
  let t := stripCh l.data
  if t.isEmpty then .blank
  else if isCommentCh t then .comment
  else
    match rxOptionCh t with
    | some (k, v) => .opt (String.mk k) (String.mk v)
    | none =>
      match rxSectionCh t with
      | some n => .sec (String.mk n)
      | none => .other

/-- `del_section`'s per-line test: only `rx_section` on the stripped line
(no blank/comment/option dispatch). -/
def headerAt (l : String) : Option String :=
  match rxSectionCh (stripCh l.data) with
  | some n => some (String.mk n)
  | none => none

/-- The section name a line contributes to `cur_section` tracking in
`get_option`, `set_option` and `del_option`: the name when the line
classifies as a section header, else `none`. -/
def secName (l : String) : Option String :=
  match classify l with
  | .sec n => some n
  | _ => none

/-- `"%s" % x` for `x` a string or `None`. -/
def pyStr : Option String → String
  | some s => s
  | none => "None"

/-- The canonical option line `"%s = %s\n" % (option, value)`. -/
def optLine (o v : String) : String := o ++ " = " ++ v ++ "\n"

/-- The section header line `"[%s]\n" % section`. -/
def secLine (sec : Option String) : String := "[" ++ pyStr sec ++ "]\n"

/-- Iterating a Python string yields its characters; `list.extend(s)` and
slice assignment `lines[i:i] = s` therefore splice in one-character lines. -/
def strLines (s : String) : List String := s.data.map (fun c => String.mk [c])

/-- The scan of `IniFile.get_option`: walk the lines tracking `cur_section`;
skip blank and comment lines; on an option match in the requested section
with the requested key return the captured value; on a section match update
`cur_section`; return `None` when the scan completes. -/
def getAux (sec : Option String) (opt : String) :
    Option String → List String → Option String
  | _, [] => none
  | cur, l :: rest =>
    match classify l with
    | .blank => getAux sec opt cur rest
    | .comment => getAux sec opt cur rest
    | .opt k v =>
      if cur = sec ∧ k = opt then some v
      else getAux sec opt cur rest
    | .sec n => getAux sec opt (some n) rest
    | .other => getAux sec opt cur rest

/-- `IniFile.get_option(section, option)`. -/
def getOption (sec : Option String) (opt : String) (lines : List String) :
    Option String :=
  getAux sec opt none lines

/-- The scan of `IniFile.set_option`: `done` holds the already-scanned
prefix (so the current index is `done.length`), `cur` is `cur_section` and
`lastOpt` is `last_opt_line`.  Blank lines are skipped; comments, options
and section headers record their index in `lastOpt`; a matching option line
is replaced by the canonical line; a section header while `cur` equals the
target inserts the canonical line's characters at
`last_opt_line > 0 and last_opt_line + 1 or 0`; at end of input the section
is created (with the readability blank line when
`lineno > 0 and lineno - last_opt_line < 2`) if `cur` differs from the
target, else the canonical line's characters are inserted at
`last_opt_line + 1`. -/
def setAux (sec : Option String) (opt v : String) :
    Option String → Nat → List String → List String → List String
  | cur, lastOpt, done, [] =>
    if cur ≠ sec then
      let n := done.length
      (if 2 ≤ n ∧ n - 1 - lastOpt < 2 then done ++ ["\n"] else done) ++
        strLines (secLine sec) ++ strLines (optLine opt v)
    else
      done.take (lastOpt + 1) ++ strLines (optLine opt v) ++ done.drop (lastOpt + 1)
  | cur, lastOpt, done, l :: rest =>
    match classify l with
    | .blank => setAux sec opt v cur lastOpt (done ++ [l]) rest
    | .comment => setAux sec opt v cur done.length (done ++ [l]) rest
    | .opt k _ =>
      if cur = sec ∧ k = opt then done ++ optLine opt v :: rest
      else setAux sec opt v cur done.length (done ++ [l]) rest
    | .sec n =>
      if cur = sec then
        let ins := if 0 < lastOpt then lastOpt + 1 else 0
        done.take ins ++ strLines (optLine opt v) ++ done.drop ins ++ l :: rest
      else setAux sec opt v (some n) done.length (done ++ [l]) rest
    | .other => setAux sec opt v cur lastOpt (done ++ [l]) rest

/-- `IniFile.set_option(section, option, value)`. -/
def setOption (sec : Option String) (opt v : String) (lines : List String) :
    List String :=
  setAux sec opt v none 0 [] lines

/-- The scan of `IniFile.del_option`: skip blank and comment lines; delete
the first option line matching the requested section and key and return
`True`; update `cur_section` on section headers; return `False` at the end. -/
def delOptionAux (sec : Option String) (opt : String) :
    Option String → List String → Bool × List String
  | _, [] => (false, [])
  | cur, l :: rest =>
    match classify l with
    | .opt k _ =>
      if cur = sec ∧ k = opt then (true, rest)
      else
        let r := delOptionAux sec opt cur rest
        (r.1, l :: r.2)
    | .sec n =>
      let r := delOptionAux sec opt (some n) rest
      (r.1, l :: r.2)
    | _ =>
      let r := delOptionAux sec opt cur rest
      (r.1, l :: r.2)

/-- `IniFile.del_option(section, option)`. -/
def delOption (sec : Option String) (opt : String) (lines : List String) :
    Bool × List String :=
  delOptionAux sec opt none lines

/-- The scan of `IniFile.del_section`: `done` is the scanned prefix and
`start` is `section_start`.  Every line is tested only against `rx_section`;
a header equal to the target records its index; any other header after the
target was found triggers `del lines[section_start:lineno]` and `True`;
at end of input, if the target was found, `del lines[section_start:]` and
`True`, else `False`. -/
def delSectionAux (sec : Option String) :
    Option Nat → List String → List String → Bool × List String
  | start, done, [] =>
    match start with
    | some s => (true, done.take s)
    | none => (false, done)
  | start, done, l :: rest =>
    match headerAt l with
    | some n =>
      if some n = sec then delSectionAux sec (some done.length) (done ++ [l]) rest
      else
        match start with
        | some s => (true, done.take s ++ l :: rest)
        | none => delSectionAux sec none (done ++ [l]) rest
    | none => delSectionAux sec start (done ++ [l]) rest

/-- `IniFile.del_section(section)`. -/
def delSection (sec : Option String) (lines : List String) :
    Bool × List String :=
  delSectionAux sec none [] lines

/-- `f.readlines()` on a character list: split after every newline, keeping
the terminators; a final segment without a newline is kept as well. -/
def splitLinesCh : List Char → List (List Char)
  | [] => []
  | c :: cs =>
    if c = '\n' then ['\n'] :: splitLinesCh cs
    else
      match splitLinesCh cs with
      | [] => [[c]]
      | l :: ls => (c :: l) :: ls

/-- `IniFile.__init__` on an existing file's content: `self.lines = f.readlines()`. -/
def readLines (s : String) : List String :=
  (splitLinesCh s.data).map String.mk

/-- `f.writelines(self.lines)`: the byte content written is the
concatenation of the lines. -/
def serialize : List String → String
  | [] => ""
  | l :: ls => l ++ serialize ls

/-- The in-memory `IniFile` object: the constructor argument `filepath` and
the mutable `self.lines`. -/
structure IniFile where
  filepath : String
  lines : List String
deriving DecidableEq, Repr

/-- The failure `IniFile.save` raises. -/
inductive PyError where
  | nameError : String → PyError
deriving DecidableEq, Repr

/-- Modelled from the source of `IniFile.save` (src/files/ini_file.py lines
136-141): its first statement is `f = open(filepath)`, and the name
`filepath` is not bound in the function, the class, or the module (the
constructor stores the path as `self.filepath`), so Python raises
`NameError: global name 'filepath' is not defined` before anything is
written.  (Even with the attribute, `open` defaults to read mode, so the
subsequent `writelines` would fail as well.)  The body therefore always
evaluates to this error and never touches the file. -/
def save (_ini : IniFile) : Except PyError Unit :=
  .error (.nameError "filepath")

/-- The final value of `last_opt_line` after a full scan of `set_option`
that never returns early: `i` is the index of the next line, `lastOpt` the
value so far; blank and unclassified lines leave it, every comment, option
and section line records its index. -/
def lastRecAux : Nat → Nat → List String → Nat
  | _, lastOpt, [] => lastOpt
  | i, lastOpt, l :: rest =>
    match classify l with
    | .blank => lastRecAux (i + 1) lastOpt rest
    | .other => lastRecAux (i + 1) lastOpt rest
    | _ => lastRecAux (i + 1) i rest

/-- `last_opt_line` at the end of a full scan started at the top. -/
def lastRecorded (lines : List String) : Nat := lastRecAux 0 0 lines

/-- The replacement `set_option` performs on its replace path: walk the
lines with the same classification and `cur_section` tracking as the scans
and replace the first option line matching the target section and key by
the canonical line. -/
def replFirst (sec : Option String) (opt v : String) :
    Option String → List String → List String
  | _, [] => []
  | cur, l :: rest =>
    match classify l with
    | .opt k _ =>
      if cur = sec ∧ k = opt then optLine opt v :: rest
      else l :: replFirst sec opt v cur rest
    | .sec n => l :: replFirst sec opt v (some n) rest
    | _ => l :: replFirst sec opt v cur rest

/-- `true` when the `set_option` scan, started in state `cur`, meets a
matching option line before it ever meets a section header while
`cur_section` equals the target (which would trigger the early-insert
branch). -/
def noEarly (sec : Option String) (opt : String) :
    Option String → List String → Bool
  | _, [] => true
  | cur, l :: rest =>
    match classify l with
    | .opt k _ => if cur = sec ∧ k = opt then true else noEarly sec opt cur rest
    | .sec n => if cur = sec then false else noEarly sec opt (some n) rest
    | _ => noEarly sec opt cur rest

/-- The value of `cur_section` after scanning the given lines starting from
state `cur`: every line classified as a section header updates it, every
other line leaves it. -/
def curAfter (cur : Option String) : List String → Option String
  | [] => cur
  | l :: rest =>
    match secName l with
    | some n => curAfter (some n) rest
    | none => curAfter cur rest

/-! ## Generic helper lemmas -/

theorem strMk_append (a b : List Char) : String.mk a ++ String.mk b = String.mk (a ++ b) := rfl

theorem strMk_data (s : String) : String.mk s.data = s := rfl

theorem serialize_append (a b : List String) :
    serialize (a ++ b) = serialize a ++ serialize b := by
  induction a with
  | nil => simp [serialize]
  | cons l ls ih => simp [serialize, ih, String.append_assoc]

theorem serialize_strLines (s : String) : serialize (strLines s) = s := by
  suffices h : ∀ cs : List Char,
      serialize ((cs.map (fun c => String.mk [c]))) = String.mk cs by
    have := h s.data
    simpa [strLines, strMk_data] using this
  intro cs
  induction cs with
  | nil => rfl
  | cons c cs ih => simp [serialize, ih, strMk_append]

/-! ## C4: load/serialize round trip -/

theorem splitLinesCh_eq_nil {cs : List Char} (h : splitLinesCh cs = []) : cs = [] := by
  cases cs with
  | nil => rfl
  | cons c cs =>
    by_cases hc : c = '\n'
    · simp [splitLinesCh, hc] at h
    · simp only [splitLinesCh, if_neg hc] at h
      cases hs : splitLinesCh cs <;> simp [hs] at h

theorem joinCh_splitLinesCh (cs : List Char) :
    (splitLinesCh cs).foldr (· ++ ·) [] = cs := by
  induction cs with
  | nil => rfl
  | cons c cs ih =>
    by_cases hc : c = '\n'
    · simp [splitLinesCh, hc] at ih ⊢
      exact ih
    · simp only [splitLinesCh, if_neg hc]
      cases hs : splitLinesCh cs with
      | nil => simp [splitLinesCh_eq_nil hs]
      | cons l ls =>
        rw [hs] at ih
        simp only [List.foldr_cons] at ih ⊢
        rw [List.cons_append, ih]

theorem serialize_map_mk (chunks : List (List Char)) :
    serialize (chunks.map String.mk) = String.mk (chunks.foldr (· ++ ·) []) := by
  induction chunks with
  | nil => rfl
  | cons l ls ih => simp [serialize, ih, strMk_append]

/-- C4 (confirmed): loading a file's content into the line list with
`readlines()` and serializing it back with `writelines` reproduces the
original byte sequence exactly, with no mutation applied in between. -/
theorem C4_roundtrip (content : String) : serialize (readLines content) = content := by
  rw [readLines, serialize_map_mk, joinCh_splitLinesCh, strMk_data]

/-! ## C10: `del_section(None)` never deletes anything -/

theorem delSectionAux_none (rest : List String) :
    ∀ done, delSectionAux none none done rest = (false, done ++ rest) := by
  induction rest with
  | nil => intro done; simp [delSectionAux]
  | cons l rest ih =>
    intro done
    simp only [delSectionAux]
    cases h : headerAt l with
    | none => rw [ih (done ++ [l])]; simp
    | some n => simp only [reduceCtorEq, if_neg]; rw [ih (done ++ [l])]; simp

/-- C10 (confirmed): `del_section(None)` returns `False` and leaves the line
list unchanged for every document, because a matched header's captured name
is a string and never equals `None`. -/
theorem C10_del_section_none (lines : List String) :
    delSection none lines = (false, lines) := by
  rw [delSection, delSectionAux_none lines []]
  rfl

/-! ## C2: `save` always raises before writing -/

/-- C2 (code bug): `IniFile.save` never succeeds and never writes: its body
reads the unbound name `filepath` (the constructor stored the path as
`self.filepath`), so every call raises `NameError` regardless of the
document or the path, instead of overwriting the constructed path with the
final line sequence. -/
theorem C2_save_always_fails (ini : IniFile) :
    save ini = .error (.nameError "filepath") := rfl

/-! ## C1: insertion point when leaving the target section -/

/-- C1 (code bug): on the document `[t]\n[n]\n` — the target section `t`
exists, lacks option `o`, and a later header `[n]` follows —
`set_option('t', 'o', 'v')` computes
`ins_index = last_opt_line > 0 and last_opt_line + 1 or 0 = 0` (the target
header sits at index 0, so `last_opt_line = 0`) and splices the option
line's characters at index 0: *before* the target section's own header, so
the new option lands in the null section, contradicting the code's own
comment "insert our option at the end of it". -/
theorem C1_insert_before_own_header :
    setOption (some "t") "o" "v" ["[t]\n", "[n]\n"] =
      ["o", " ", "=", " ", "v", "\n", "[t]\n", "[n]\n"] ∧
    serialize (setOption (some "t") "o" "v" ["[t]\n", "[n]\n"]) =
      "o = v\n[t]\n[n]\n" := by
  constructor <;> decide

/-! ## C5: classification priority -/

/-- C5 (counterexample): the line `[a]=b` matches both `rx_section` and
`rx_option`, yet `get_option` treats it as an *option* (key `[a]`, value
`b`), not as a section header: querying option `x` in section `a` of
`[a]=b\nx = 1\n` finds nothing (the line did not open section `a`), while
querying `x` in the null section succeeds, and option `[a]` in the null
section returns `b`.  This refutes the claimed blank/comment/section/option
priority for `get_option`. -/
theorem C5_counterexample :
    rxSectionCh (stripCh ("[a]=b\n").data) = some ['a'] ∧
    rxOptionCh (stripCh ("[a]=b\n").data) = some (['[', 'a', ']'], ['b']) ∧
    getOption (some "a") "x" ["[a]=b\n", "x = 1\n"] = none ∧
    getOption none "x" ["[a]=b\n", "x = 1\n"] = some "1" ∧
    getOption none "[a]" ["[a]=b\n", "x = 1\n"] = some "b" := by
  refine ⟨by decide, by decide, by decide, by decide, by decide⟩

/-- C5 (amended): the classification shared by `get_option`, `set_option`
and `del_option` tests, in order: blank, comment, option, section — the
option pattern *before* the section pattern — so a line matching both
patterns is classified as an option by those three operations; `del_section`
instead tests only the section pattern on the stripped line and treats such
a line as a section header. -/
theorem C5_amended_priority :
    (∀ (l : String) (k v s : List Char),
        rxOptionCh (stripCh l.data) = some (k, v) →
        rxSectionCh (stripCh l.data) = some s →
        (stripCh l.data).isEmpty = false →
        isCommentCh (stripCh l.data) = false →
        classify l = LineKind.opt (String.mk k) (String.mk v)) ∧
    getOption none "[a]" ["[a]=b\n"] = some "b" ∧
    delSection (some "a") ["[a]=b\n"] = (true, []) := by
  refine ⟨?_, by decide, by decide⟩
  intro l k v s hopt _hsec hblank hcomment
  simp [classify, hblank, hcomment, hopt]

/-- Witness for C5: the theorem applied to the concrete line `[a]=b\n`. -/
theorem C5_witness :
    classify "[a]=b\n" = LineKind.opt (String.mk ['[', 'a', ']']) (String.mk ['b']) :=
  C5_amended_priority.1 "[a]=b\n" ['[', 'a', ']'] ['b'] ['a']
    (by decide) (by decide) (by decide) (by decide)

/-! ## C9: the value returned by `get_option` -/

/-- C9 (counterexample): on the stored line `a = b  \n` the claim predicts
the raw capture `b  ` (trailing whitespace preserved as stored), but
`get_option` strips the line before matching and returns `b`. -/
theorem C9_counterexample :
    getOption none "a" ["a = b  \n"] = some "b" ∧
    getOption none "a" ["a = b  \n"] ≠ some "b  " := by
  refine ⟨by decide, by decide⟩

theorem getAux_first_match (sec : Option String) (opt : String) (l : String)
    (post : List String) (v₀ : String)
    (hcl : classify l = LineKind.opt opt v₀) :
    ∀ (pre : List String) (cur : Option String),
      curAfter cur pre = sec →
      (∀ p₁ l' p₂ k' v', pre = p₁ ++ l' :: p₂ →
        classify l' = LineKind.opt k' v' →
        ¬(curAfter cur p₁ = sec ∧ k' = opt)) →
      getAux sec opt cur (pre ++ l :: post) = some v₀ := by
  intro pre
  induction pre with
  | nil =>
    intro cur hcur _
    simp only [curAfter] at hcur
    simp only [List.nil_append, getAux, hcl]
    rw [if_pos ⟨hcur, trivial⟩]
  | cons p pre ih =>
    intro cur hcur hfirst
    rw [List.cons_append]
    cases hc : classify p with
    | blank =>
      have hsn : secName p = none := by simp only [secName, hc]
      simp only [getAux, hc]
      simp only [curAfter, hsn] at hcur
      refine ih cur hcur ?_
      intro p₁ l' p₂ k' v' heq hcl'
      have h2 := hfirst (p :: p₁) l' p₂ k' v' (by rw [heq]; rfl) hcl'
      simpa only [curAfter, hsn] using h2
    | comment =>
      have hsn : secName p = none := by simp only [secName, hc]
      simp only [getAux, hc]
      simp only [curAfter, hsn] at hcur
      refine ih cur hcur ?_
      intro p₁ l' p₂ k' v' heq hcl'
      have h2 := hfirst (p :: p₁) l' p₂ k' v' (by rw [heq]; rfl) hcl'
      simpa only [curAfter, hsn] using h2
    | opt k' v' =>
      have hsn : secName p = none := by simp only [secName, hc]
      simp only [getAux, hc]
      have hno := hfirst [] p pre k' v' rfl hc
      simp only [curAfter] at hno
      rw [if_neg hno]
      simp only [curAfter, hsn] at hcur
      refine ih cur hcur ?_
      intro p₁ l' p₂ k'' v'' heq hcl'
      have h2 := hfirst (p :: p₁) l' p₂ k'' v'' (by rw [heq]; rfl) hcl'
      simpa only [curAfter, hsn] using h2
    | sec n =>
      have hsn : secName p = some n := by simp only [secName, hc]
      simp only [getAux, hc]
      simp only [curAfter, hsn] at hcur
      refine ih (some n) hcur ?_
      intro p₁ l' p₂ k'' v'' heq hcl'
      have h2 := hfirst (p :: p₁) l' p₂ k'' v'' (by rw [heq]; rfl) hcl'
      simpa only [curAfter, hsn] using h2
    | other =>
      have hsn : secName p = none := by simp only [secName, hc]
      simp only [getAux, hc]
      simp only [curAfter, hsn] at hcur
      refine ih cur hcur ?_
      intro p₁ l' p₂ k' v' heq hcl'
      have h2 := hfirst (p :: p₁) l' p₂ k' v' (by rw [heq]; rfl) hcl'
      simpa only [curAfter, hsn] using h2

/-- C9 (amended): for every document of the form `pre ++ l :: post` where
`l` is the *first* option line whose current section (tracked from the top
of the document by `curAfter`) equals the requested section and whose key
equals the requested option — no line of `pre` is such a match —
`get_option` returns exactly that line's option capture `v₀` *after
stripping* (`classify` strips the line before the regex runs, so leading
whitespace after `=` and all trailing whitespace, including the newline,
are absent from the result, rather than trailing whitespace being returned
as stored).  The operation never mutates the document: the embedding of
`get_option` consumes the line list and returns only the optional value. -/
theorem C9_amended_get_value (sec : Option String) (opt : String)
    (pre post : List String) (l : String) (v₀ : String)
    (hcl : classify l = LineKind.opt opt v₀)
    (hcur : curAfter none pre = sec)
    (hfirst : ∀ p₁ l' p₂ k' v', pre = p₁ ++ l' :: p₂ →
      classify l' = LineKind.opt k' v' →
      ¬(curAfter none p₁ = sec ∧ k' = opt)) :
    getOption sec opt (pre ++ l :: post) = some v₀ :=
  getAux_first_match sec opt l post v₀ hcl pre none hcur hfirst

/-- Witness for C9: the theorem applied to the document
`[s]\nx = 1\na = b  \n` — the first matching line for option `a` in
section `s` is the stored line `a = b  \n`, and the returned value is its
stripped capture `b`. -/
theorem C9_witness :
    getOption (some "s") "a" (["[s]\n", "x = 1\n"] ++ "a = b  \n" :: []) = some "b" :=
  C9_amended_get_value (some "s") "a" ["[s]\n", "x = 1\n"] [] "a = b  \n" "b"
    (by decide) (by decide)
    (by
      intro p₁ l' p₂ k' v' heq hcl'
      cases p₁ with
      | nil =>
        simp only [List.nil_append, List.cons.injEq] at heq
        obtain ⟨rfl, rfl⟩ := heq
        rw [(by decide : classify "[s]\n" = LineKind.sec "s")] at hcl'
        exact absurd hcl' (by simp)
      | cons a p₁' =>
        simp only [List.cons_append, List.cons.injEq] at heq
        obtain ⟨rfl, heq2⟩ := heq
        cases p₁' with
        | nil =>
          simp only [List.nil_append, List.cons.injEq] at heq2
          obtain ⟨rfl, rfl⟩ := heq2
          rw [(by decide : classify "x = 1\n" = LineKind.opt "x" "1")] at hcl'
          injection hcl' with hk hv
          subst hk
          intro hcontra
          exact absurd hcontra.2 (by decide)
        | cons b p₁'' =>
          simp at heq2)

/-! ## C6: creation of a missing section at end of file -/

/-- C6 (counterexample): the claim's "separating blank line iff the prior
content is not already separated by one" fails in both directions.  On
`a = b\n\n` — already separated from the end by a blank line — creating
section `s` still adds another separator (three consecutive newlines in the
result), and on the unseparated one-line document `a = b\n` no separator is
added at all: the code's actual test is
`lineno > 0 and lineno - last_opt_line < 2`. -/
theorem C6_counterexample :
    classify "\n" = LineKind.blank ∧
    serialize (setOption (some "s") "o" "v" ["a = b\n", "\n"]) =
      "a = b\n\n\n[s]\no = v\n" ∧
    serialize (setOption (some "s") "o" "v" ["a = b\n", "\n"]) ≠
      serialize ["a = b\n", "\n"] ++ "[s]\no = v\n" ∧
    serialize (setOption (some "s") "o" "v" ["a = b\n"]) =
      "a = b\n[s]\no = v\n" := by
  refine ⟨by decide, by decide, by decide, by decide⟩

theorem setAux_append_section (s o v : String) :
    ∀ (rest : List String) (cur : Option String) (lastOpt : Nat) (done : List String),
      (∀ l ∈ rest, secName l ≠ some s) →
      cur ≠ some s →
      setAux (some s) o v cur lastOpt done rest =
        (done ++ rest) ++
          (if 2 ≤ (done ++ rest).length ∧
              (done ++ rest).length - 1 - lastRecAux done.length lastOpt rest < 2
            then ["\n"] else []) ++
          strLines (secLine (some s)) ++ strLines (optLine o v) := by
  intro rest
  induction rest with
  | nil =>
    intro cur lastOpt done _hn hcur
    simp only [setAux, lastRecAux, List.append_nil, if_pos hcur]
    by_cases hb : 2 ≤ done.length ∧ done.length - 1 - lastOpt < 2
    · simp [if_pos hb]
    · simp [if_neg hb]
  | cons l rest ih =>
    intro cur lastOpt done hn hcur
    have hnr : ∀ l' ∈ rest, secName l' ≠ some s :=
      fun l' hl' => hn l' (List.mem_cons_of_mem l hl')
    have hlen : (done ++ [l]).length = done.length + 1 := by simp
    simp only [setAux]
    split
    next hc =>
      rw [ih cur lastOpt (done ++ [l]) hnr hcur]
      simp only [lastRecAux, hc, hlen]
      simp
    next hc =>
      rw [ih cur done.length (done ++ [l]) hnr hcur]
      simp only [lastRecAux, hc, hlen]
      simp
    next k a hc =>
      rw [if_neg (fun h => hcur h.1)]
      rw [ih cur done.length (done ++ [l]) hnr hcur]
      simp only [lastRecAux, hc, hlen]
      simp
    next n hc =>
      have hsn : secName l = some n := by simp only [secName, hc]
      have hns : n ≠ s := fun h =>
        hn l (List.mem_cons_self l rest) (by rw [hsn, h])
      rw [if_neg hcur]
      rw [ih (some n) done.length (done ++ [l]) hnr
        (fun h => hns (Option.some_inj.mp h))]
      simp only [lastRecAux, hc, hlen]
      simp
    next hc =>
      rw [ih cur lastOpt (done ++ [l]) hnr hcur]
      simp only [lastRecAux, hc, hlen]
      simp

/-- C6 (amended): setting an option of a section absent from the document
(no line classifies as a header named `s`) appends, at the end of the line
list, the characters of `[s]\n` followed by the characters of
`o = v\n` (Python's `list.extend(str)` splices individual characters, so
the serialized bytes are those two lines), preceded by a separating blank
line if and only if the document has at least two lines and fewer than two
lines lie between the last recorded comment/option/header line and the end
(`lineno > 0 and lineno - last_opt_line < 2`) — a single trailing blank
line does not suppress the separator, and a one-line document never
receives one. -/
theorem strAppend_empty (s : String) : s ++ "" = s := by
  obtain ⟨d⟩ := s
  rw [show ("" : String) = String.mk [] from rfl, strMk_append, List.append_nil]

theorem serialize_singleton (s : String) : serialize [s] = s := by
  rw [show serialize [s] = s ++ "" from rfl, strAppend_empty]

theorem C6_amended_append (s o v : String) (lines : List String)
    (habs : ∀ l ∈ lines, secName l ≠ some s) :
    setOption (some s) o v lines =
      lines ++
        (if 2 ≤ lines.length ∧ lines.length - 1 - lastRecorded lines < 2
          then ["\n"] else []) ++
        strLines ("[" ++ s ++ "]\n") ++ strLines (o ++ " = " ++ v ++ "\n") ∧
    serialize (setOption (some s) o v lines) =
      serialize lines ++
        (if 2 ≤ lines.length ∧ lines.length - 1 - lastRecorded lines < 2
          then "\n" else "") ++
        ("[" ++ s ++ "]\n") ++ (o ++ " = " ++ v ++ "\n") := by
  have h1 := setAux_append_section s o v lines none 0 [] habs (by simp)
  simp only [List.nil_append, List.length_nil] at h1
  have h1' : setOption (some s) o v lines =
      lines ++
        (if 2 ≤ lines.length ∧ lines.length - 1 - lastRecorded lines < 2
          then ["\n"] else []) ++
        strLines ("[" ++ s ++ "]\n") ++ strLines (o ++ " = " ++ v ++ "\n") := by
    rw [setOption, h1, lastRecorded]
    simp [secLine, pyStr, optLine, List.append_assoc]
  refine ⟨h1', ?_⟩
  rw [h1', serialize_append, serialize_append, serialize_append,
    serialize_strLines, serialize_strLines]
  by_cases hb : 2 ≤ lines.length ∧ lines.length - 1 - lastRecorded lines < 2
  · rw [if_pos hb, if_pos hb]
    rw [show serialize ["\n"] = "\n" ++ "" from rfl, strAppend_empty]
  · rw [if_neg hb, if_neg hb]
    rw [show serialize ([] : List String) = "" from rfl]

/-- Witness for C6: the theorem applied to the document `[drinks]\nfav = tea\n`
and the new section `other`. -/
theorem C6_witness :
    serialize (setOption (some "other") "o" "v" ["[drinks]\n", "fav = tea\n"]) =
      serialize ["[drinks]\n", "fav = tea\n"] ++ "\n" ++ "[other]\n" ++ "o = v\n" := by
  have h := (C6_amended_append "other" "o" "v" ["[drinks]\n", "fav = tea\n"]
    (by decide)).2
  simpa using h

/-! ## C8: frame property — each operation is a single splice -/

theorem setAux_frame (sec : Option String) (o v : String) :
    ∀ (rest : List String) (cur : Option String) (lastOpt : Nat) (done : List String),
      (lastOpt = 0 ∨ lastOpt < done.length) →
      ∃ i j ins, i ≤ j ∧ j ≤ i + 1 ∧ j ≤ (done ++ rest).length ∧
        setAux sec o v cur lastOpt done rest =
          (done ++ rest).take i ++ ins ++ (done ++ rest).drop j ∧
        (serialize ins = optLine o v ∨
          (i = j ∧ j = (done ++ rest).length ∧
            (serialize ins = secLine sec ++ optLine o v ∨
             serialize ins = "\n" ++ secLine sec ++ optLine o v))) := by
  intro rest
  induction rest with
  | nil =>
    intro cur lastOpt done hinv
    simp only [setAux, List.append_nil]
    by_cases hcur : cur ≠ sec
    · rw [if_pos hcur]
      by_cases hb : 2 ≤ done.length ∧ done.length - 1 - lastOpt < 2
      · refine ⟨done.length, done.length,
          ["\n"] ++ strLines (secLine sec) ++ strLines (optLine o v),
          Nat.le_refl _, Nat.le_succ _, Nat.le_refl _, ?_, ?_⟩
        · rw [if_pos hb, List.take_length done, List.drop_length done, List.append_nil]
          simp
        · refine Or.inr ⟨rfl, rfl, Or.inr ?_⟩
          rw [serialize_append, serialize_append, serialize_strLines,
            serialize_strLines, serialize_singleton]
      · refine ⟨done.length, done.length,
          strLines (secLine sec) ++ strLines (optLine o v),
          Nat.le_refl _, Nat.le_succ _, Nat.le_refl _, ?_, ?_⟩
        · rw [if_neg hb, List.take_length done, List.drop_length done, List.append_nil]
          simp
        · refine Or.inr ⟨rfl, rfl, Or.inl ?_⟩
          rw [serialize_append, serialize_strLines, serialize_strLines]
    · rw [if_neg hcur]
      by_cases hlen : lastOpt + 1 ≤ done.length
      · exact ⟨lastOpt + 1, lastOpt + 1, strLines (optLine o v),
          Nat.le_refl _, Nat.le_succ _, hlen, rfl, Or.inl (serialize_strLines _)⟩
      · have hd : done = [] := by
          rcases hinv with h0 | hlt
          · have h1 : done.length = 0 := by omega
            exact List.length_eq_zero.mp h1
          · exact absurd hlt (by omega)
        subst hd
        refine ⟨0, 0, strLines (optLine o v),
          Nat.le_refl _, Nat.le_succ _, Nat.le_refl _, ?_, Or.inl (serialize_strLines _)⟩
        simp
  | cons l rest ih =>
    intro cur lastOpt done hinv
    have hrec : ∀ (cur' : Option String) (lastOpt' : Nat),
        (lastOpt' = 0 ∨ lastOpt' < (done ++ [l]).length) →
        ∃ i j ins, i ≤ j ∧ j ≤ i + 1 ∧ j ≤ (done ++ l :: rest).length ∧
          setAux sec o v cur' lastOpt' (done ++ [l]) rest =
            (done ++ l :: rest).take i ++ ins ++ (done ++ l :: rest).drop j ∧
          (serialize ins = optLine o v ∨
            (i = j ∧ j = (done ++ l :: rest).length ∧
              (serialize ins = secLine sec ++ optLine o v ∨
               serialize ins = "\n" ++ secLine sec ++ optLine o v))) := by
      intro cur' lastOpt' hinv'
      obtain ⟨i, j, ins, hij, hj1, hjlen, heq, hser⟩ := ih cur' lastOpt' (done ++ [l]) hinv'
      have hsame : (done ++ [l]) ++ rest = done ++ l :: rest := by simp
      rw [hsame] at hjlen heq hser
      exact ⟨i, j, ins, hij, hj1, hjlen, heq, hser⟩
    have hlt : done.length < (done ++ [l]).length := by simp
    have hinvKeep : lastOpt = 0 ∨ lastOpt < (done ++ [l]).length := by
      rcases hinv with h | h
      · exact Or.inl h
      · exact Or.inr (Nat.lt_trans h hlt)
    simp only [setAux]
    split
    next hc => exact hrec cur lastOpt hinvKeep
    next hc => exact hrec cur done.length (Or.inr hlt)
    next k a hc =>
      by_cases hm : cur = sec ∧ k = o
      · rw [if_pos hm]
        refine ⟨done.length, done.length + 1, [optLine o v],
          Nat.le_succ _, Nat.le_refl _, ?_, ?_, Or.inl (serialize_singleton _)⟩
        · simp only [List.length_append, List.length_cons]
          omega
        · have h1 : (done ++ l :: rest).take done.length = done :=
            (List.take_append_of_le_length (Nat.le_refl _)).trans (List.take_length done)
          have h2 : (done ++ l :: rest).drop (done.length + 1) = rest := by
            rw [show done ++ l :: rest = (done ++ [l]) ++ rest from by simp,
              List.drop_append_of_le_length (by simp)]
            simp
          rw [h1, h2]
          simp
      · rw [if_neg hm]
        exact hrec cur done.length (Or.inr hlt)
    next n hc =>
      by_cases hm : cur = sec
      · rw [if_pos hm]
        have hp : (if 0 < lastOpt then lastOpt + 1 else 0) ≤ done.length := by
          by_cases h0 : 0 < lastOpt
          · rw [if_pos h0]
            rcases hinv with h | h
            · omega
            · omega
          · rw [if_neg h0]
            exact Nat.zero_le _
        refine ⟨if 0 < lastOpt then lastOpt + 1 else 0,
          if 0 < lastOpt then lastOpt + 1 else 0, strLines (optLine o v),
          Nat.le_refl _, Nat.le_succ _, ?_, ?_, Or.inl (serialize_strLines _)⟩
        · have hlen2 : done.length ≤ (done ++ l :: rest).length := by
            simp only [List.length_append, List.length_cons]
            omega
          omega
        · rw [List.take_append_of_le_length hp, List.drop_append_of_le_length hp]
          simp [List.append_assoc]
      · rw [if_neg hm]
        exact hrec (some n) done.length (Or.inr hlt)
    next hc => exact hrec cur lastOpt hinvKeep

theorem delOptionAux_frame (sec : Option String) (o : String) :
    ∀ (rest : List String) (cur : Option String),
      ∃ i j, i ≤ j ∧
        (delOptionAux sec o cur rest).2 = rest.take i ++ rest.drop j := by
  intro rest
  induction rest with
  | nil =>
    intro cur
    exact ⟨0, 0, Nat.le_refl _, rfl⟩
  | cons l rest ih =>
    intro cur
    have hrec : ∀ (cur' : Option String),
        ∃ i j, i ≤ j ∧
          (l :: (delOptionAux sec o cur' rest).2) =
            (l :: rest).take i ++ (l :: rest).drop j := by
      intro cur'
      obtain ⟨i, j, hij, heq⟩ := ih cur'
      refine ⟨i + 1, j + 1, Nat.succ_le_succ hij, ?_⟩
      rw [List.take_succ_cons, List.drop_succ_cons, heq]
      simp
    simp only [delOptionAux]
    split
    next k a hc =>
      by_cases hm : cur = sec ∧ k = o
      · rw [if_pos hm]
        exact ⟨0, 1, Nat.le_succ 0, by simp⟩
      · rw [if_neg hm]
        exact hrec cur
    next n hc => exact hrec (some n)
    next hc1 hc2 => exact hrec cur

theorem delSectionAux_frame (sec : Option String) :
    ∀ (rest : List String) (start : Option Nat) (done : List String),
      (start = none ∨ ∃ k, start = some k ∧ k ≤ done.length) →
      ∃ i j, i ≤ j ∧
        (delSectionAux sec start done rest).2 =
          (done ++ rest).take i ++ (done ++ rest).drop j := by
  intro rest
  induction rest with
  | nil =>
    intro start done hinv
    simp only [delSectionAux, List.append_nil]
    rcases hinv with rfl | ⟨k, rfl, hk⟩
    · exact ⟨0, 0, Nat.le_refl _, by simp⟩
    · refine ⟨k, done.length, hk, ?_⟩
      rw [List.drop_length done, List.append_nil]
  | cons l rest ih =>
    intro start done hinv
    have hrec : ∀ (start' : Option Nat),
        (start' = none ∨ ∃ k, start' = some k ∧ k ≤ (done ++ [l]).length) →
        ∃ i j, i ≤ j ∧
          (delSectionAux sec start' (done ++ [l]) rest).2 =
            (done ++ l :: rest).take i ++ (done ++ l :: rest).drop j := by
      intro start' hinv'
      obtain ⟨i, j, hij, heq⟩ := ih start' (done ++ [l]) hinv'
      refine ⟨i, j, hij, ?_⟩
      rw [heq]
      simp [List.append_assoc]
    simp only [delSectionAux]
    split
    next n hc =>
      by_cases hm : some n = sec
      · rw [if_pos hm]
        exact hrec (some done.length) (Or.inr ⟨done.length, rfl, by simp⟩)
      · rw [if_neg hm]
        rcases hinv with rfl | ⟨k, rfl, hk⟩
        · exact hrec none (Or.inl rfl)
        · refine ⟨k, done.length, hk, ?_⟩
          rw [List.take_append_of_le_length hk,
            List.drop_append_of_le_length (Nat.le_refl _), List.drop_length done]
          simp
    next hc =>
      rcases hinv with rfl | ⟨k, rfl, hk⟩
      · exact hrec none (Or.inl rfl)
      · exact hrec (some k) (Or.inr ⟨k, rfl, Nat.le_trans hk (by simp)⟩)

/-- C8 (confirmed): every single operation is one splice of the line list
that only touches the lines it must.  For `set_option` there are indices
`i ≤ j` with `j ≤ i + 1` (at most one original line leaves the document)
and `j ≤ lines.length`, and inserted lines `ins`, such that the result is
`lines.take i ++ ins ++ lines.drop j` where the bytes of `ins` are exactly
the canonical option line (replace and in-section insert paths) or the
new-section block `[section]\noption = value\n` with an optional leading
separator blank line appended at the very end (`i = j = lines.length`).
For `del_option` and `del_section` the result is `lines.take i ++
lines.drop j` with `i ≤ j` (nothing inserted).  Hence every line outside
the one touched window — comments, blank lines, other sections' and
options' lines — is preserved verbatim and in order. -/
theorem C8_frame (sec : Option String) (o v : String) (lines : List String) :
    (∃ i j ins, i ≤ j ∧ j ≤ i + 1 ∧ j ≤ lines.length ∧
        setOption sec o v lines = lines.take i ++ ins ++ lines.drop j ∧
        (serialize ins = optLine o v ∨
          (i = j ∧ j = lines.length ∧
            (serialize ins = secLine sec ++ optLine o v ∨
             serialize ins = "\n" ++ secLine sec ++ optLine o v)))) ∧
    (∃ i j, i ≤ j ∧
        (delOption sec o lines).2 = lines.take i ++ lines.drop j) ∧
    (∃ i j, i ≤ j ∧
        (delSection sec lines).2 = lines.take i ++ lines.drop j) := by
  refine ⟨?_, ?_, ?_⟩
  · obtain ⟨i, j, ins, hij, hj1, hjlen, heq, hser⟩ :=
      setAux_frame sec o v lines none 0 [] (Or.inl rfl)
    rw [List.nil_append] at hjlen heq hser
    exact ⟨i, j, ins, hij, hj1, hjlen, by rw [setOption]; exact heq, hser⟩
  · exact delOptionAux_frame sec o lines none
  · obtain ⟨i, j, hij, heq⟩ :=
      delSectionAux_frame sec lines none [] (Or.inl rfl)
    exact ⟨i, j, hij, by simpa [delSection] using heq⟩

/-! ## C7: scope of `del_section` -/

theorem delSectionAux_skip_no_target (s : String) :
    ∀ (A : List String) (rest done : List String),
      (∀ l ∈ A, headerAt l ≠ some s) →
      delSectionAux (some s) none done (A ++ rest) =
        delSectionAux (some s) none (done ++ A) rest := by
  intro A
  induction A with
  | nil => intro rest done _; simp
  | cons l A ih =>
    intro rest done hA
    have hl : headerAt l ≠ some s := hA l (List.mem_cons_self l A)
    have hAr : ∀ l' ∈ A, headerAt l' ≠ some s :=
      fun l' h => hA l' (List.mem_cons_of_mem l h)
    rw [List.cons_append]
    cases hh : headerAt l with
    | none =>
      simp only [delSectionAux, hh]
      rw [ih rest (done ++ [l]) hAr]
      simp
    | some n =>
      have hns : ¬(some n = some s) := by rw [← hh]; exact hl
      simp only [delSectionAux, hh, if_neg hns]
      rw [ih rest (done ++ [l]) hAr]
      simp

theorem delSectionAux_skip_no_header (s : String) :
    ∀ (C : List String) (rest done : List String) (start : Nat),
      (∀ l ∈ C, headerAt l = none) →
      delSectionAux (some s) (some start) done (C ++ rest) =
        delSectionAux (some s) (some start) (done ++ C) rest := by
  intro C
  induction C with
  | nil => intro rest done start _; simp
  | cons l C ih =>
    intro rest done start hC
    have hl : headerAt l = none := hC l (List.mem_cons_self l C)
    have hCr : ∀ l' ∈ C, headerAt l' = none :=
      fun l' h => hC l' (List.mem_cons_of_mem l h)
    rw [List.cons_append]
    simp only [delSectionAux, hl]
    rw [ih rest (done ++ [l]) start hCr]
    simp

theorem first_filterMap_split {α β : Type} [DecidableEq β] (f : α → Option β) (s : β) :
    ∀ (lines : List α), s ∈ lines.filterMap f →
      ∃ A hl B, lines = A ++ hl :: B ∧ f hl = some s ∧ ∀ l ∈ A, f l ≠ some s := by
  intro lines
  induction lines with
  | nil => intro h; simp at h
  | cons l ls ih =>
    intro h
    by_cases hf : f l = some s
    · exact ⟨[], l, ls, rfl, hf, by simp⟩
    · have hmem : s ∈ ls.filterMap f := by
        rw [List.filterMap_cons] at h
        cases hfl : f l with
        | none => rwa [hfl] at h
        | some t =>
          rw [hfl] at h
          rcases List.mem_cons.mp h with rfl | h2
          · exact absurd hfl hf
          · exact h2
      obtain ⟨A, hl, B, heq, hhl, hA⟩ := ih hmem
      refine ⟨l :: A, hl, B, by rw [heq]; rfl, hhl, ?_⟩
      intro l' hl'
      rcases List.mem_cons.mp hl' with rfl | h2
      · exact hf
      · exact hA l' h2

theorem dropWhile_head_not {α : Type} (p : α → Bool) :
    ∀ (B : List α), B.dropWhile p = [] ∨
      ∃ d D', B.dropWhile p = d :: D' ∧ p d = false := by
  intro B
  induction B with
  | nil => exact Or.inl rfl
  | cons b B ih =>
    by_cases hb : p b
    · rw [List.dropWhile_cons_of_pos hb]
      exact ih
    · rw [List.dropWhile_cons_of_neg hb]
      exact Or.inr ⟨b, B, rfl, Bool.of_not_eq_true hb⟩

/-- C7 (confirmed): in a document whose section headers (lines matching
`rx_section` after stripping) have pairwise distinct names, if the target
section exists `del_section` returns `True` and removes exactly the
contiguous block from the target header line up to but not including the
next header line of any name (or to end of file when none follows), and if
it is absent it returns `False` and leaves the document unchanged. -/
theorem C7_del_section_scope (s : String) (lines : List String)
    (hnd : (lines.filterMap headerAt).Nodup) :
    (s ∈ lines.filterMap headerAt →
      ∃ i j, i < j ∧ j ≤ lines.length ∧
        (∃ li, lines.get? i = some li ∧ headerAt li = some s) ∧
        (∀ k lk, i < k → k < j → lines.get? k = some lk → headerAt lk = none) ∧
        (j = lines.length ∨ ∃ lj t, lines.get? j = some lj ∧ headerAt lj = some t) ∧
        delSection (some s) lines = (true, lines.take i ++ lines.drop j)) ∧
    (s ∉ lines.filterMap headerAt →
      delSection (some s) lines = (false, lines)) := by
  constructor
  · intro hmem
    obtain ⟨A, hl, B, rfl, hhl, hA⟩ := first_filterMap_split headerAt s lines hmem
    set p : String → Bool := fun l => (headerAt l).isNone with hp
    set C := B.takeWhile p with hC
    set D := B.dropWhile p with hD
    have hBCD : B = C ++ D := (List.takeWhile_append_dropWhile p B).symm
    have hCnone : ∀ l ∈ C, headerAt l = none := by
      intro l hl'
      have := List.mem_takeWhile_imp hl'
      rw [hp] at this
      exact Option.isNone_iff_eq_none.mp this
    have hcompute : delSection (some s) (A ++ hl :: B) =
        delSectionAux (some s) (some A.length) ((A ++ [hl]) ++ C) D := by
      rw [delSection, delSectionAux_skip_no_target s A (hl :: B) [] hA]
      simp only [List.nil_append, delSectionAux, hhl, if_pos, eq_self_iff_true, if_true]
      rw [hBCD, delSectionAux_skip_no_header s C D (A ++ [hl]) A.length hCnone]
    have hdnotnil : D ≠ [] → ∃ d D' t, D = d :: D' ∧ headerAt d = some t := by
      intro hne
      rcases dropWhile_head_not p B with hnil | ⟨d, D', hcons, hpd⟩
      · rw [← hD] at hnil; exact absurd hnil hne
      · rw [← hD] at hcons
        refine ⟨d, D', ?_⟩
        rw [hp] at hpd
        cases hh : headerAt d with
        | none => simp [hh] at hpd
        | some t => exact ⟨t, hcons, rfl⟩
    have hlen : (A ++ hl :: B).length = A.length + 1 + C.length + D.length := by
      rw [hBCD]
      simp only [List.length_append, List.length_cons]
      omega
    refine ⟨A.length, A.length + 1 + C.length, by omega, by rw [hlen]; omega, ?_, ?_, ?_, ?_⟩
    · refine ⟨hl, ?_, hhl⟩
      rw [List.get?_append_right (Nat.le_refl A.length), Nat.sub_self]
      rfl
    · intro k lk hik hkj hget
      rw [List.get?_append_right (Nat.le_of_lt hik)] at hget
      obtain ⟨m, hm⟩ : ∃ m, k - A.length = m + 1 := ⟨k - A.length - 1, by omega⟩
      rw [hm] at hget
      have hget2 : B.get? m = some lk := hget
      rw [hBCD, List.get?_append (by omega : m < C.length)] at hget2
      exact hCnone lk (List.get?_mem hget2)
    · by_cases hne : D = []
      · left
        have hD0 : D.length = 0 := by rw [hne]; rfl
        rw [hlen]
        omega
      · right
        obtain ⟨d, D', t, hcons, ht⟩ := hdnotnil hne
        refine ⟨d, t, ?_, ht⟩
        rw [List.get?_append_right (by omega : A.length ≤ A.length + 1 + C.length)]
        obtain ⟨m, hm⟩ : ∃ m, A.length + 1 + C.length - A.length = m + 1 :=
          ⟨C.length, by omega⟩
        rw [hm]
        have hmC : m = C.length := by omega
        have hget2 : B.get? m = some d := by
          rw [hBCD, hcons, hmC, List.get?_append_right (Nat.le_refl C.length),
            Nat.sub_self]
          rfl
        exact hget2
    · have htake : (A ++ hl :: B).take A.length = A :=
        (List.take_append_of_le_length (Nat.le_refl _)).trans (List.take_length A)
      have hdrop : (A ++ hl :: B).drop (A.length + 1 + C.length) = D := by
        have h1 : A.length + 1 + C.length = A.length + (1 + C.length) := by omega
        rw [h1, List.drop_append (1 + C.length)]
        have h2 : 1 + C.length = C.length + 1 := by omega
        rw [h2]
        show (hl :: B).drop (C.length + 1) = D
        rw [List.drop_succ_cons, hBCD, List.drop_left C D]
      rw [hcompute, htake, hdrop]
      by_cases hne : D = []
      · rw [hne]
        simp only [delSectionAux]
        rw [List.take_append_of_le_length (by simp),
          List.take_append_of_le_length (Nat.le_refl _), List.take_length A]
        simp
      · obtain ⟨d, D', t, hcons, ht⟩ := hdnotnil hne
        have hts : t ≠ s := by
          intro hts
          rw [hts] at ht
          have hsplit : (A ++ hl :: B).filterMap headerAt =
              A.filterMap headerAt ++ s :: B.filterMap headerAt := by
            rw [List.filterMap_append, List.filterMap_cons, hhl]
          rw [hsplit] at hnd
          have hnd2 := (List.nodup_append.mp hnd).2.1
          have hsmem : s ∈ B.filterMap headerAt := by
            rw [hBCD, hcons, List.filterMap_append, List.filterMap_cons, ht]
            exact List.mem_append_right _ (List.mem_cons_self s _)
          exact (List.nodup_cons.mp hnd2).1 hsmem
        rw [hcons]
        simp only [delSectionAux, ht]
        rw [if_neg (fun h => hts (Option.some_inj.mp h))]
        rw [List.take_append_of_le_length (by simp),
          List.take_append_of_le_length (Nat.le_refl _), List.take_length A]
  · intro hnotmem
    have hA : ∀ l ∈ lines, headerAt l ≠ some s := by
      intro l hl hsome
      exact hnotmem (List.mem_filterMap.mpr ⟨l, hl, hsome⟩)
    have h := delSectionAux_skip_no_target s lines [] [] hA
    rw [List.append_nil] at h
    rw [delSection, h]
    simp [delSectionAux]

/-- Witness for C7: the theorem applied to `[a]\nx = 1\n[b]\ny = 2\n` with
target section `a`. -/
theorem C7_witness :
    ∃ i j, i < j ∧ j ≤ (["[a]\n", "x = 1\n", "[b]\n", "y = 2\n"] : List String).length ∧
      (∃ li, (["[a]\n", "x = 1\n", "[b]\n", "y = 2\n"] : List String).get? i = some li ∧
        headerAt li = some "a") ∧
      (∀ k lk, i < k → k < j →
        (["[a]\n", "x = 1\n", "[b]\n", "y = 2\n"] : List String).get? k = some lk →
        headerAt lk = none) ∧
      (j = (["[a]\n", "x = 1\n", "[b]\n", "y = 2\n"] : List String).length ∨
        ∃ lj t, (["[a]\n", "x = 1\n", "[b]\n", "y = 2\n"] : List String).get? j = some lj ∧
          headerAt lj = some t) ∧
      delSection (some "a") ["[a]\n", "x = 1\n", "[b]\n", "y = 2\n"] =
        (true, (["[a]\n", "x = 1\n", "[b]\n", "y = 2\n"] : List String).take i ++
          (["[a]\n", "x = 1\n", "[b]\n", "y = 2\n"] : List String).drop j) :=
  (C7_del_section_scope "a" ["[a]\n", "x = 1\n", "[b]\n", "y = 2\n"] (by decide)).1 (by decide)

/-! ## C3: idempotence of `set_option` after a successful `get_option` -/

theorem strData_append (a b : String) : (a ++ b).data = a.data ++ b.data := rfl

theorem takeWhile_append_all {p : Char → Bool} :
    ∀ (k : List Char) (x : Char) (xs : List Char),
      (∀ c ∈ k, p c = true) → p x = false →
      (k ++ x :: xs).takeWhile p = k := by
  intro k
  induction k with
  | nil =>
    intro x xs _ hx
    rw [List.nil_append, List.takeWhile_cons_of_neg (by simp [hx])]
  | cons c k ih =>
    intro x xs hall hx
    have hc : p c = true := hall c (List.mem_cons_self c k)
    rw [List.cons_append, List.takeWhile_cons_of_pos hc,
      ih x xs (fun c' h => hall c' (List.mem_cons_of_mem c h)) hx]

theorem dropWhile_append_all {p : Char → Bool} :
    ∀ (k : List Char) (x : Char) (xs : List Char),
      (∀ c ∈ k, p c = true) → p x = false →
      (k ++ x :: xs).dropWhile p = x :: xs := by
  intro k
  induction k with
  | nil =>
    intro x xs _ hx
    rw [List.nil_append, List.dropWhile_cons_of_neg (by simp [hx])]
  | cons c k ih =>
    intro x xs hall hx
    have hc : p c = true := hall c (List.mem_cons_self c k)
    rw [List.cons_append, List.dropWhile_cons_of_pos hc,
      ih x xs (fun c' h => hall c' (List.mem_cons_of_mem c h)) hx]

theorem stripRight_last_nonspace (X : List Char) (c : Char)
    (hc : isPySpace c = false) : stripRight (X ++ [c]) = X ++ [c] := by
  rw [stripRight, List.reverse_append]
  simp only [List.reverse_cons, List.reverse_nil, List.nil_append, List.cons_append]
  rw [List.dropWhile_cons_of_neg (by simp [hc])]
  rw [List.reverse_cons, List.reverse_reverse]

theorem stripRight_append (A B : List Char) :
    stripRight (A ++ B) =
      if stripRight B = [] then stripRight A else A ++ stripRight B := by
  rw [stripRight, List.reverse_append, List.dropWhile_append]
  by_cases hB : (B.reverse.dropWhile isPySpace).isEmpty
  · rw [if_pos hB]
    have hBnil : stripRight B = [] := by
      rw [stripRight]
      have : B.reverse.dropWhile isPySpace = [] := by
        cases h : B.reverse.dropWhile isPySpace with
        | nil => rfl
        | cons a as => rw [h] at hB; simp at hB
      rw [this]
      rfl
    rw [if_pos hBnil]
    rfl
  · rw [if_neg hB]
    have hBne : stripRight B ≠ [] := by
      intro hnil
      rw [stripRight] at hnil
      have := congrArg List.reverse hnil
      rw [List.reverse_reverse] at this
      rw [this] at hB
      simp at hB
    rw [if_neg hBne, List.reverse_append, List.reverse_reverse, stripRight]

theorem rxOptionCh_some {t kd vd : List Char} (h : rxOptionCh t = some (kd, vd)) :
    kd = t.takeWhile optKeyChar ∧ kd ≠ [] := by
  simp only [rxOptionCh] at h
  split at h
  next hkE => exact absurd h (by simp)
  next hkE =>
    have hne : t.takeWhile optKeyChar ≠ [] := by
      intro hnil
      rw [hnil] at hkE
      simp at hkE
    split at h
    next r heq =>
      simp only [Option.some.injEq, Prod.mk.injEq] at h
      exact ⟨h.1.symm, fun hnil => hne (h.1.trans hnil)⟩
    next heq => exact absurd h (by simp)

theorem classify_opt_key {l k v : String} (h : classify l = LineKind.opt k v) :
    k.data ≠ [] ∧ (∀ c ∈ k.data, optKeyChar c = true) ∧
    isCommentCh k.data = false := by
  simp only [classify] at h
  split at h
  · exact absurd h (by simp)
  next hbE =>
    split at h
    · exact absurd h (by simp)
    next hcm =>
      split at h
      next kd vd hro =>
        obtain ⟨hkd, hnil⟩ := rxOptionCh_some hro
        injection h with h1 h2
        have hdata : k.data = kd := by rw [← h1]
        refine ⟨by rw [hdata]; exact hnil, ?_, ?_⟩
        · intro c hc
          rw [hdata, hkd] at hc
          exact List.mem_takeWhile_imp hc
        · have ht : stripCh l.data = kd ++ (stripCh l.data).dropWhile optKeyChar := by
            conv_lhs => rw [← List.takeWhile_append_dropWhile optKeyChar (stripCh l.data)]
            rw [hkd]
          cases hkc : kd with
          | nil => exact absurd hkc hnil
          | cons c kd' =>
            rw [hdata, hkc]
            have heqc : isCommentCh (stripCh l.data) = isCommentCh (c :: kd') := by
              rw [ht, hkc]
              simp only [List.cons_append]
              rfl
            rw [← heqc]
            exact Bool.of_not_eq_true hcm
      next hro =>
        split at h
        · exact absurd h (by simp)
        · exact absurd h (by simp)

theorem classify_optLine {k : String} (u : String)
    (hne : k.data ≠ []) (hall : ∀ c ∈ k.data, optKeyChar c = true)
    (hcm : isCommentCh k.data = false) :
    ∃ w, classify (optLine k u) = LineKind.opt k w := by
  obtain ⟨c, kd', hk⟩ : ∃ c kd', k.data = c :: kd' := by
    cases hkc : k.data with
    | nil => exact absurd hkc hne
    | cons c kd' => exact ⟨c, kd', rfl⟩
  have hcKey : optKeyChar c = true := hall c (by rw [hk]; exact List.mem_cons_self _ _)
  have hcSpace : isPySpace c = false := by
    rw [optKeyChar, Bool.and_eq_true] at hcKey
    cases hsp : isPySpace c
    · rfl
    · rw [hsp] at hcKey
      simp at hcKey
  have hdata : (optLine k u).data = k.data ++ ([' ', '=', ' '] ++ (u.data ++ ['\n'])) := by
    rw [optLine, strData_append, strData_append, strData_append,
      (by decide : (" = " : String).data = [' ', '=', ' ']),
      (by decide : ("\n" : String).data = ['\n'])]
    simp [List.append_assoc]
  have hstripL : stripLeft (optLine k u).data = (optLine k u).data := by
    rw [hdata, hk]
    simp only [List.cons_append]
    exact List.dropWhile_cons_of_neg (by simp [hcSpace])
  have hsplit : (optLine k u).data = (k.data ++ [' ', '=']) ++ (' ' :: (u.data ++ ['\n'])) := by
    rw [hdata]
    simp
  have hstripR : ∃ r, stripRight (optLine k u).data = k.data ++ (' ' :: '=' :: r) := by
    rw [hsplit, stripRight_append]
    by_cases hB : stripRight (' ' :: (u.data ++ ['\n'])) = []
    · rw [if_pos hB]
      refine ⟨[], ?_⟩
      have hre : k.data ++ [' ', '='] = (k.data ++ [' ']) ++ ['='] := by simp
      rw [hre, stripRight_last_nonspace _ '=' (by decide)]
    · rw [if_neg hB]
      exact ⟨stripRight (' ' :: (u.data ++ ['\n'])), by simp⟩
  obtain ⟨r, hr⟩ := hstripR
  have htp : stripCh (optLine k u).data = k.data ++ ' ' :: '=' :: r := by
    rw [stripCh, hstripL, hr]
  have hblank : (stripCh (optLine k u).data).isEmpty = false := by
    rw [htp, hk]
    rfl
  have hcomment : isCommentCh (stripCh (optLine k u).data) = false := by
    rw [htp, hk]
    simp only [List.cons_append]
    have : isCommentCh (c :: (kd' ++ ' ' :: '=' :: r)) = isCommentCh (c :: kd') := rfl
    rw [this, ← hk]
    exact hcm
  have h1 : (k.data ++ ' ' :: '=' :: r).takeWhile optKeyChar = k.data :=
    takeWhile_append_all k.data ' ' ('=' :: r) hall (by decide)
  have h2 : (k.data ++ ' ' :: '=' :: r).dropWhile optKeyChar = ' ' :: '=' :: r :=
    dropWhile_append_all k.data ' ' ('=' :: r) hall (by decide)
  have hkE : (k.data).isEmpty = false := by
    rw [hk]
    rfl
  have h3 : (' ' :: '=' :: r).dropWhile isPySpace = '=' :: r := by
    rw [List.dropWhile_cons_of_pos (by decide), List.dropWhile_cons_of_neg (by decide)]
  have hrx : rxOptionCh (stripCh (optLine k u).data) =
      some (k.data, (r.dropWhile isPySpace).takeWhile (fun c => c != '\n')) := by
    rw [htp]
    simp only [rxOptionCh, h1, h2, h3, hkE]
    rfl
  refine ⟨String.mk ((r.dropWhile isPySpace).takeWhile (fun c => c != '\n')), ?_⟩
  simp only [classify, hblank, hcomment, hrx]
  rw [strMk_data]
  simp

theorem getAux_none_sec_of_some (opt : String) :
    ∀ (rest : List String) (c : String),
      getAux none opt (some c) rest = none := by
  intro rest
  induction rest with
  | nil => intro c; rfl
  | cons l rest ih =>
    intro c
    cases hc : classify l with
    | blank => simp only [getAux, hc]; exact ih c
    | comment => simp only [getAux, hc]; exact ih c
    | opt k v =>
      simp only [getAux, hc]
      rw [if_neg (fun h => Option.noConfusion h.1)]
      exact ih c
    | sec n => simp only [getAux, hc]; exact ih n
    | other => simp only [getAux, hc]; exact ih c

theorem getAux_target_header_mem (s : String) (opt : String) :
    ∀ (rest : List String) (cur : Option String) (v : String),
      getAux (some s) opt cur rest = some v → cur ≠ some s →
      s ∈ rest.filterMap secName := by
  intro rest
  induction rest with
  | nil => intro cur v h _; simp [getAux] at h
  | cons l rest ih =>
    intro cur v h hcur
    cases hc : classify l with
    | blank =>
      simp only [getAux, hc] at h
      have hsn : secName l = none := by simp only [secName, hc]
      simp only [List.filterMap_cons, hsn]
      exact ih cur v h hcur
    | comment =>
      simp only [getAux, hc] at h
      have hsn : secName l = none := by simp only [secName, hc]
      simp only [List.filterMap_cons, hsn]
      exact ih cur v h hcur
    | opt k v₀ =>
      simp only [getAux, hc] at h
      have hsn : secName l = none := by simp only [secName, hc]
      simp only [List.filterMap_cons, hsn]
      by_cases hm : cur = some s ∧ k = opt
      · exact absurd hm.1 hcur
      · rw [if_neg hm] at h
        exact ih cur v h hcur
    | sec n =>
      simp only [getAux, hc] at h
      have hsn : secName l = some n := by simp only [secName, hc]
      simp only [List.filterMap_cons, hsn]
      by_cases hns : n = s
      · rw [hns]; exact List.mem_cons_self s _
      · exact List.mem_cons_of_mem n
          (ih (some n) v h (fun hh => hns (Option.some_inj.mp hh)))
    | other =>
      simp only [getAux, hc] at h
      have hsn : secName l = none := by simp only [secName, hc]
      simp only [List.filterMap_cons, hsn]
      exact ih cur v h hcur

theorem noEarly_of_get (sec : Option String) (opt : String) :
    ∀ (rest : List String) (cur : Option String) (v : String),
      getAux sec opt cur rest = some v →
      (rest.filterMap secName).Nodup →
      (cur = sec → sec = none ∨ ∃ s, sec = some s ∧ s ∉ rest.filterMap secName) →
      noEarly sec opt cur rest = true := by
  intro rest
  induction rest with
  | nil => intro cur v h _ _; simp [getAux] at h
  | cons l rest ih =>
    intro cur v h hnd hinv
    cases hc : classify l with
    | blank =>
      have hsn : secName l = none := by simp only [secName, hc]
      simp only [getAux, hc] at h
      simp only [List.filterMap_cons, hsn] at hnd hinv
      simp only [noEarly, hc]
      exact ih cur v h hnd hinv
    | comment =>
      have hsn : secName l = none := by simp only [secName, hc]
      simp only [getAux, hc] at h
      simp only [List.filterMap_cons, hsn] at hnd hinv
      simp only [noEarly, hc]
      exact ih cur v h hnd hinv
    | opt k v₀ =>
      have hsn : secName l = none := by simp only [secName, hc]
      simp only [getAux, hc] at h
      simp only [List.filterMap_cons, hsn] at hnd hinv
      simp only [noEarly, hc]
      by_cases hm : cur = sec ∧ k = opt
      · rw [if_pos hm]
      · rw [if_neg hm] at h ⊢
        exact ih cur v h hnd hinv
    | sec n =>
      have hsn : secName l = some n := by simp only [secName, hc]
      simp only [getAux, hc] at h
      simp only [List.filterMap_cons, hsn] at hnd hinv
      have hndn : n ∉ rest.filterMap secName := (List.nodup_cons.mp hnd).1
      have hndr : (rest.filterMap secName).Nodup := (List.nodup_cons.mp hnd).2
      simp only [noEarly, hc]
      by_cases hm : cur = sec
      · rw [if_pos hm]
        exfalso
        rcases hinv hm with hnone | ⟨s, hss, hnot⟩
        · rw [hnone] at h
          rw [getAux_none_sec_of_some opt rest n] at h
          exact Option.noConfusion h
        · rw [hss] at h
          have hsn' : s ≠ n := fun he => hnot (he ▸ List.mem_cons_self n _)
          have hmem := getAux_target_header_mem s opt rest (some n) v h
            (fun hh => hsn' (Option.some_inj.mp hh).symm)
          exact hnot (List.mem_cons_of_mem n hmem)
      · rw [if_neg hm]
        refine ih (some n) v h hndr ?_
        intro h2
        exact Or.inr ⟨n, h2.symm, hndn⟩
    | other =>
      have hsn : secName l = none := by simp only [secName, hc]
      simp only [getAux, hc] at h
      simp only [List.filterMap_cons, hsn] at hnd hinv
      simp only [noEarly, hc]
      exact ih cur v h hnd hinv

theorem setAux_idem (sec : Option String) (opt v : String) :
    ∀ (rest : List String) (cur : Option String) (w : String)
      (lastOpt lastOpt' : Nat) (done done' : List String),
      noEarly sec opt cur rest = true →
      getAux sec opt cur rest = some w →
      setAux sec opt v cur lastOpt done rest = done ++ replFirst sec opt v cur rest ∧
      setAux sec opt v cur lastOpt' done' (replFirst sec opt v cur rest) =
        done' ++ replFirst sec opt v cur rest := by
  intro rest
  induction rest with
  | nil => intro cur w _ _ _ _ _ hget; simp [getAux] at hget
  | cons l rest ih =>
    intro cur w lastOpt lastOpt' done done' hne hget
    cases hc : classify l with
    | blank =>
      simp only [noEarly, hc] at hne
      simp only [getAux, hc] at hget
      simp only [replFirst, hc]
      obtain ⟨h1, h2⟩ :=
        ih cur w lastOpt lastOpt' (done ++ [l]) (done' ++ [l]) hne hget
      constructor
      · simp only [setAux, hc]
        rw [h1]
        simp
      · simp only [setAux, hc]
        rw [h2]
        simp
    | comment =>
      simp only [noEarly, hc] at hne
      simp only [getAux, hc] at hget
      simp only [replFirst, hc]
      obtain ⟨h1, h2⟩ :=
        ih cur w done.length done'.length (done ++ [l]) (done' ++ [l]) hne hget
      constructor
      · simp only [setAux, hc]
        rw [h1]
        simp
      · simp only [setAux, hc]
        rw [h2]
        simp
    | opt k v₀ =>
      simp only [noEarly, hc] at hne
      simp only [getAux, hc] at hget
      by_cases hm : cur = sec ∧ k = opt
      · simp only [replFirst, hc, if_pos hm]
        obtain ⟨hknil, hkall, hkcm⟩ := classify_opt_key hc
        obtain ⟨hcs, hko⟩ := hm
        subst hko
        obtain ⟨w', hw'⟩ := classify_optLine v hknil hkall hkcm
        constructor
        · simp [setAux, hc, hcs]
        · simp [setAux, hw', hcs]
      · simp only [replFirst, hc, if_neg hm]
        rw [if_neg hm] at hne hget
        obtain ⟨h1, h2⟩ :=
          ih cur w done.length done'.length (done ++ [l]) (done' ++ [l]) hne hget
        constructor
        · simp only [setAux, hc, if_neg hm]
          rw [h1]
          simp
        · simp only [setAux, hc, if_neg hm]
          rw [h2]
          simp
    | sec n =>
      simp only [noEarly, hc] at hne
      simp only [getAux, hc] at hget
      by_cases hm : cur = sec
      · rw [if_pos hm] at hne
        exact absurd hne (by simp)
      · rw [if_neg hm] at hne
        simp only [replFirst, hc]
        obtain ⟨h1, h2⟩ :=
          ih (some n) w done.length done'.length (done ++ [l]) (done' ++ [l]) hne hget
        constructor
        · simp only [setAux, hc, if_neg hm]
          rw [h1]
          simp
        · simp only [setAux, hc, if_neg hm]
          rw [h2]
          simp
    | other =>
      simp only [noEarly, hc] at hne
      simp only [getAux, hc] at hget
      simp only [replFirst, hc]
      obtain ⟨h1, h2⟩ :=
        ih cur w lastOpt lastOpt' (done ++ [l]) (done' ++ [l]) hne hget
      constructor
      · simp only [setAux, hc]
        rw [h1]
        simp
      · simp only [setAux, hc]
        rw [h2]
        simp

/-- C3 (counterexample): with duplicate section headers the claimed
idempotence fails.  On `[t]\n[x]\n[t]\no = old\n`, `get_option('t','o')`
returns `old`, yet the first `set_option('t','o','old')` takes the
early-insert branch at `[x]` (the first `[t]` block lacks the option) and
splices the option line's characters at index 0; the second call cannot see
those one-character lines as an option line, so it inserts again, and the
serialized bytes differ between the two calls' end states. -/
theorem C3_counterexample :
    getOption (some "t") "o" ["[t]\n", "[x]\n", "[t]\n", "o = old\n"] = some "old" ∧
    serialize (setOption (some "t") "o" "old"
        (setOption (some "t") "o" "old" ["[t]\n", "[x]\n", "[t]\n", "o = old\n"])) ≠
      serialize (setOption (some "t") "o" "old"
        ["[t]\n", "[x]\n", "[t]\n", "o = old\n"]) := by
  refine ⟨by decide, by decide⟩

/-- C3 (amended): for every document whose section-header lines have
pairwise distinct names (duplicate sections are unsupported), if
`get_option(section, option)` currently returns exactly `value`, then
calling `set_option(section, option, value)` and calling it again leaves
the line list — and hence the serialized byte content — identical between
the end states of the first and the second call: both calls replace the
same first matching option line with the same canonical line. -/
theorem C3_amended_idempotent (sec : Option String) (opt value : String)
    (lines : List String)
    (hnd : (lines.filterMap secName).Nodup)
    (hget : getOption sec opt lines = some value) :
    setOption sec opt value (setOption sec opt value lines) =
      setOption sec opt value lines ∧
    serialize (setOption sec opt value (setOption sec opt value lines)) =
      serialize (setOption sec opt value lines) := by
  have hinv : none = sec → sec = none ∨ ∃ s, sec = some s ∧ s ∉ lines.filterMap secName :=
    fun h => Or.inl h.symm
  have hne := noEarly_of_get sec opt lines none value hget hnd hinv
  obtain ⟨h1, h2⟩ := setAux_idem sec opt value lines none value 0 0 [] [] hne hget
  have e1 : setOption sec opt value lines = replFirst sec opt value none lines := by
    rw [setOption, h1, List.nil_append]
  have e2 : setOption sec opt value (replFirst sec opt value none lines) =
      replFirst sec opt value none lines := by
    rw [setOption, h2, List.nil_append]
  have hmain : setOption sec opt value (setOption sec opt value lines) =
      setOption sec opt value lines := by
    rw [e1]
    exact e2
  exact ⟨hmain, congrArg serialize hmain⟩

/-- Witness for C3: the theorem applied to the document `[t]\no = old\n`. -/
theorem C3_witness :
    setOption (some "t") "o" "old"
        (setOption (some "t") "o" "old" ["[t]\n", "o = old\n"]) =
      setOption (some "t") "o" "old" ["[t]\n", "o = old\n"] :=
  (C3_amended_idempotent (some "t") "o" "old" ["[t]\n", "o = old\n"]
    (by decide) (by decide)).1
